import Mathlib

/-!
Shallow embedding of `src/essence_tracker.py` (fuel-price tracker).

Strings from Python are modelled as `List Char`; prices (Python floats that
are always small decimal literals compared against 1.5 and 2.5) are modelled
as `ℚ`.  Fallible operations are modelled with `Option`; exception control
flow is modelled explicitly where a claim is about it.
-/

namespace EssenceTracker

/-- Python `str.startswith` / substring-prefix test on `List Char`. -/
def isPre (needle haystack : List Char) : Bool :=
  List.isPrefixOf needle haystack

/-- Python `needle in haystack` (substring containment) on `List Char`. -/
def isSub (needle haystack : List Char) : Bool :=
  match haystack with
  | [] => needle.isEmpty
  | _ :: t => List.isPrefixOf needle haystack || isSub needle t

/-- Python whitespace test used by `str.strip()` and `str.split()`;
the page strings we model only use ordinary spaces, tabs and newlines. -/
def isWs (c : Char) : Bool := c = ' ' || c = '\t' || c = '\n' || c = '\r'

/-- Python `str.strip()`: drop leading and trailing whitespace. -/
def strip (s : List Char) : List Char :=
  ((s.dropWhile isWs).reverse.dropWhile isWs).reverse

/-- Python `str.split()` (no argument): split on whitespace runs, dropping
empty tokens. -/
def splitWs (s : List Char) : List (List Char) :=
  ((s.splitOnP (fun c => isWs c)).filter (fun t => !t.isEmpty))

/-- Lexicographic comparison of char lists: this is how Python compares the
ISO-format `date` strings when `add_price` sorts with key `x['date']`. -/
def leChars : List Char → List Char → Bool
  | [], _ => true
  | _ :: _, [] => false
  | a :: as, b :: bs =>
      if a < b then true
      else if b < a then false
      else leChars as bs

/-! ## Record store (`PriceTracker`) -/

/-- One persisted price entry, the dict built in `PriceTracker.add_price`
(`date`, `price`, `fuel`, `postal`, `station`, `location`). -/
structure Entry where
  date : List Char
  price : ℚ
  fuel : List Char
  postal : List Char
  station : List Char
  location : List Char
deriving DecidableEq, Repr

/-- The removal condition of `add_price`:
`e['date'].startswith(today_str) and e['station'] == station_name and
e['postal'] == postal_code`. -/
def sameDayEntry (today station postal : List Char) (e : Entry) : Bool :=
  isPre today e.date && e.station == station && e.postal == postal

/-- Sort key used by `self.data.sort(key=lambda x: x['date'])`. -/
def dateLe (a b : Entry) : Bool := leChars a.date b.date

/-- The sort relation of `self.data.sort(key=lambda x: x['date'])` as a
decidable proposition. -/
def entryLe (a b : Entry) : Prop := dateLe a b = true

instance : DecidableRel entryLe := fun a b => by
  unfold entryLe; infer_instance

/-- `PriceTracker.add_price`: drop today's entry for this station/postal,
append the fresh entry, sort by date.  The two clock reads
`datetime.now().isoformat()` and `datetime.now().strftime("%Y-%m-%d")` are
passed in as `now` and `today`.  (The `save_db` call inside `add_price`
touches only the file, never `self.data`; persistence is modelled
separately below.)  Python's `list.sort` is modelled by insertion sort: a
sorted permutation, which is all the claims depend on.  Returns the new
collection and the created entry. -/
def addPrice (data : List Entry) (price : ℚ)
    (postal station fuel now today : List Char) : List Entry × Entry :=
  let filtered := data.filter (fun e => !(sameDayEntry today station postal e))
  let entry : Entry :=
    { date := now, price := price, fuel := fuel, postal := postal,
      station := station, location := "Courbevoie".toList }
  (List.insertionSort entryLe (filtered ++ [entry]), entry)

/-- `PriceTracker.get_history`: returns `self.data` unchanged. -/
def getHistory (data : List Entry) : List Entry := data

/-- `PriceTracker.get_latest`: `self.data[-1] if self.data else None`. -/
def getLatest (data : List Entry) : Option Entry := data.getLast?

/-- The arguments of one `add_price` call, the two clock reads included. -/
structure AddCall where
  price : ℚ
  postal : List Char
  station : List Char
  fuel : List Char
  now : List Char
  today : List Char
deriving Repr

/-- Run a sequence of `add_price` calls against an in-memory collection. -/
def runCalls (data : List Entry) : List AddCall → List Entry
  | [] => data
  | c :: cs =>
      runCalls (addPrice data c.price c.postal c.station c.fuel c.now c.today).1 cs

/-- A well-formed pair of clock reads: `strftime("%Y-%m-%d")` is the 10-char
calendar day and is a prefix of the same moment's `isoformat()` string. -/
def wfClock (c : AddCall) : Prop :=
  c.today.length = 10 ∧ isPre c.today c.now = true

/-! ## Persistence (`load_db` / `save_db`)

The JSON file is modelled by its parse outcome: it is missing, it exists but
`json.load` raises on it, or it parses to an entry collection.  (The `json`
module is external to the repository; its round-trip on these values is its
documented contract.) -/

/-- Parse outcome of the persisted store file. -/
inductive FileState where
  | missing : FileState
  | corrupt : FileState
  | valid : List Entry → FileState
deriving DecidableEq, Repr

/-- `PriceTracker.load_db`: missing file gives `[]`; a file on which
`json.load` raises is caught, logged and gives `[]`; otherwise the parsed
collection is returned.  Total: every exception path is caught. -/
def loadDb : FileState → List Entry
  | FileState.missing => []
  | FileState.corrupt => []
  | FileState.valid es => es

/-- `PriceTracker.save_db`: writes `self.data`; a raised write error is
caught and logged, `self.data` is untouched either way.  `writeOk` says
whether the dump raises; `failFile` is whatever the interrupted write left
on disk.  Returns the file state and the (unchanged) in-memory data. -/
def saveDb (data : List Entry) (writeOk : Bool) (failFile : FileState) :
    FileState × List Entry :=
  if writeOk then (FileState.valid data, data) else (failFile, data)

/-! ## Price extractor (`fetch_price_selenium_station`)

The rendered page is modelled by its `page_source` string and by the list of
texts of the DOM elements matched by the XPath `//*[contains(text(), '€')]`,
in document order.  Python's `float()` on the arbitrary token the secondary
strategy cuts out is modelled by an abstract parameter
`parseFloat : List Char → Option ℚ` (`none` = `ValueError`). -/

def isDig (c : Char) : Bool := '0' ≤ c && c ≤ '9'

/-- One attempted match of `1\.[0-9]{2,3}` at the head of the string:
greedy (three fraction digits when available, else two).  Returns the
matched text and the remaining input. -/
def priceTok : List Char → Option (List Char × List Char)
  | '1' :: '.' :: d1 :: d2 :: d3 :: tail =>
      if isDig d1 && isDig d2 then
        if isDig d3 then some (['1', '.', d1, d2, d3], tail)
        else some (['1', '.', d1, d2], d3 :: tail)
      else none
  | ['1', '.', d1, d2] =>
      if isDig d1 && isDig d2 then some (['1', '.', d1, d2], []) else none
  | _ => none

/-- The scan loop of `re.findall(r'1\.[0-9]{2,3}', ...)`, with an explicit
fuel argument for structural recursion; each step consumes at least one
character, so fuel equal to the input length (see `findallPrice`) is always
enough. -/
def findallPriceAux : ℕ → List Char → List (List Char)
  | 0, _ => []
  | _ + 1, [] => []
  | fuel + 1, c :: rest =>
      match priceTok (c :: rest) with
      | some (m, tail) => m :: findallPriceAux fuel tail
      | none => findallPriceAux fuel rest

/-- `re.findall(r'1\.[0-9]{2,3}', page_source)`: scan left to right, at each
position try a greedy match; on a hit continue after the consumed text
(non-overlapping), on a miss advance one character. -/
def findallPrice (s : List Char) : List (List Char) :=
  findallPriceAux s.length s

/-- Numeric value of a digit character. -/
def digVal (c : Char) : ℕ := c.toNat - '0'.toNat

/-- Numeric value of a digit string, most significant digit first. -/
def natOfDigits (l : List Char) : ℕ :=
  l.foldl (fun a c => a * 10 + digVal c) 0

/-- Python `float(m)` on a match of `1\.[0-9]{2,3}`: exact decimal value
(these decimals and the bounds 1.5, 2.5 are compared exactly alike by
binary floats and by `ℚ`). -/
def floatOfMatch : List Char → ℚ
  | [_, _, d1, d2] => 1 + (natOfDigits [d1, d2] : ℚ) / 100
  | [_, _, d1, d2, d3] => 1 + (natOfDigits [d1, d2, d3] : ℚ) / 1000
  | _ => 0

/-- The plausibility test `1.5 < p < 2.5` applied by both strategies. -/
def plausible2 (p : ℚ) : Bool := decide (3/2 < p) && decide (p < 5/2)

/-- The selection step of the primary strategy on the distinct candidate
values: `prices.sort()` then `for p in reversed(prices): if 1.5 < p < 2.5:
price = p; break`. -/
def selectFromCandidates (prices : List ℚ) : Option ℚ :=
  (List.insertionSort (· ≤ ·) prices).reverse.find? plausible2

/-- Primary strategy: regex scan of `page_source`, distinct matches parsed
to floats, sorted, scanned from the highest down (`if matches:` guards the
whole block, so no matches means no primary result). -/
def primaryScan (pageSource : List Char) : Option ℚ :=
  if (findallPrice pageSource).isEmpty then none
  else selectFromCandidates (((findallPrice pageSource).dedup).map floatOfMatch)

/-- Secondary strategy body for one element text:
`price_str = text.split('€')[0].strip().split()[-1]; p = float(price_str)`,
any exception skipping the element (`except: pass`).  Returns the parsed
value before the plausibility test. -/
def elemCandidate (parseFloat : List Char → Option ℚ) (text : List Char) :
    Option ℚ :=
  match (splitWs (strip (text.takeWhile (fun c => c ≠ '€')))).getLast? with
  | none => none
  | some tok => parseFloat tok

/-- Secondary strategy loop over `price_elements[:10]`: strip each element
text, require it nonempty and containing '€', parse the token before the
euro sign, accept the first plausible value. -/
def secondaryScan (parseFloat : List Char → Option ℚ) :
    List (List Char) → Option ℚ
  | [] => none
  | e :: rest =>
      let text := strip e
      if !text.isEmpty && text.contains '€' then
        match elemCandidate parseFloat text with
        | some p =>
            if plausible2 p then some p else secondaryScan parseFloat rest
        | none => secondaryScan parseFloat rest
      else secondaryScan parseFloat rest

/-- `station_name.split("|")[0].strip()`. -/
def stationShortName (stationName : List Char) : List Char :=
  strip (stationName.takeWhile (fun c => c ≠ '|'))

/-- The extraction heuristic of `fetch_price_selenium_station` (lines
346-389): station presence gate, then primary text scan, then — only when
the primary found nothing — the secondary scan over the first 10
euro-elements.  `none` is Python's `price = None`. -/
def extractStationPrice (parseFloat : List Char → Option ℚ)
    (stationName pageSource : List Char) (euroElems : List (List Char)) :
    Option ℚ :=
  if isSub (stationShortName stationName) pageSource
      || isSub stationName pageSource then
    match primaryScan pageSource with
    | some p => some p
    | none => secondaryScan parseFloat (euroElems.take 10)
  else none

/-- Unsigned decimal parse: digits, then optionally a dot and digits. -/
def parseDecCore (t : List Char) : Option ℚ :=
  let intPart := t.takeWhile isDig
  let rest := t.drop intPart.length
  if rest.isEmpty then
    if intPart.isEmpty then none else some (natOfDigits intPart : ℚ)
  else if rest.head? = some '.' && (rest.drop 1).all isDig then
    if intPart.isEmpty && (rest.drop 1).isEmpty then none
    else
      some ((natOfDigits intPart : ℚ) +
        (natOfDigits (rest.drop 1) : ℚ) / (10 ^ (rest.drop 1).length))
  else none

/-- Model of Python `float()` restricted to the plain decimal tokens used in
concrete witnesses: optional sign, digits, optional fraction. -/
def parseDec (s : List Char) : Option ℚ :=
  match s with
  | c :: t =>
      if c = '-' then (parseDecCore t).map (fun q => -q)
      else if c = '+' then parseDecCore t
      else parseDecCore (c :: t)
  | [] => none

/-! ## Session lifecycle of `fetch_price_selenium_station`

The whole body after building `chrome_options` sits in one outer
`try/except` that returns `None`; there is no `finally`.  Two inner
`try/except` blocks cover the postal-input interaction and the extraction
heuristic.  The environment records which of the remaining, uncovered
driver operations raises; exceptions inside the two inner blocks are caught
there and never reach the outer handler. -/

/-- Which external operations of one extraction call raise, plus the
rendered page.  `inputBlockRaises` is listed for completeness: it is caught
by the inner handler at line 336 and cannot alter the session outcome. -/
structure SessionEnv where
  createRaises : Bool
  navigateRaises : Bool
  inputBlockRaises : Bool
  scrollRaises : Bool
  extractRaises : Bool
  quitRaises : Bool
  pageSource : List Char
  euroElems : List (List Char)
  parseFloat : List Char → Option ℚ

/-- Observable outcome of one `fetch_price_selenium_station` call:
the returned value, whether `webdriver.Chrome(...)` succeeded (a session
exists), and whether `driver.quit()` was invoked before returning. -/
structure SessionOutcome where
  result : Option ℚ
  created : Bool
  quitCalled : Bool
deriving DecidableEq, Repr

/-- `fetch_price_selenium_station` control flow (lines 290-400).
`driver = webdriver.Chrome(...)` raising reaches the outer handler with no
session.  `driver.get` (line 294) and `driver.execute_script` (line 342)
raising reach the outer handler after the session exists, and the handler
returns `None` without calling `driver.quit()`.  The input block and the
extraction block catch their own exceptions.  On the remaining paths
`driver.quit()` (line 394) runs and the extracted price is returned. -/
def fetchPriceSeleniumStation (stationName : List Char) (env : SessionEnv) :
    SessionOutcome :=
  if env.createRaises then
    { result := none, created := false, quitCalled := false }
  else if env.navigateRaises then
    { result := none, created := true, quitCalled := false }
  else if env.scrollRaises then
    { result := none, created := true, quitCalled := false }
  else
    let price :=
      if env.extractRaises then none
      else extractStationPrice env.parseFloat stationName env.pageSource
        env.euroElems
    if env.quitRaises then
      { result := none, created := true, quitCalled := true }
    else
      { result := price, created := true, quitCalled := true }

/-! ## Fetch orchestrator (`fetch_all_prices`)

The configured mapping is a list of (postal code, station list) pairs; the
extractor is an abstract `fetch` function (`fetch_price_for_station`
delegates directly to the extractor).  `clock n` is the pair of clock reads
performed by the n-th successful commit's `add_price` call. -/

/-- One configured station: `{name: ..., fuel: ...}`. -/
structure StationCfg where
  name : List Char
  fuel : List Char
deriving DecidableEq, Repr

/-- Inner loop of `fetch_all_prices` over the stations of one postal code,
threading the tracker data, the success counter and the clock index. -/
def fetchStationsLoop (fetch : List Char → List Char → Option ℚ)
    (clock : ℕ → List Char × List Char) (postal : List Char) :
    List StationCfg → List Entry → ℕ → ℕ → List Entry × ℕ × ℕ
  | [], data, total, idx => (data, total, idx)
  | sc :: rest, data, total, idx =>
      match fetch postal sc.name with
      | some p =>
          fetchStationsLoop fetch clock postal rest
            (addPrice data p postal sc.name sc.fuel (clock idx).1 (clock idx).2).1
            (total + 1) (idx + 1)
      | none => fetchStationsLoop fetch clock postal rest data total idx

/-- Outer loop of `fetch_all_prices` over the postal codes. -/
def fetchAllLoop (fetch : List Char → List Char → Option ℚ)
    (clock : ℕ → List Char × List Char) :
    List (List Char × List StationCfg) → List Entry → ℕ → ℕ →
    List Entry × ℕ × ℕ
  | [], data, total, idx => (data, total, idx)
  | (postal, stations) :: rest, data, total, idx =>
      let r := fetchStationsLoop fetch clock postal stations data total idx
      fetchAllLoop fetch clock rest r.1 r.2.1 r.2.2

/-- `fetch_all_prices`: starts from the loaded tracker data and a zero
counter and reports the final collection and the final tally. -/
def fetchAllPrices (fetch : List Char → List Char → Option ℚ)
    (cfg : List (List Char × List StationCfg))
    (init : List Entry) (clock : ℕ → List Char × List Char) :
    List Entry × ℕ :=
  let r := fetchAllLoop fetch clock cfg init 0 0
  (r.1, r.2.1)

/-- All configured (postal code, station) pairs, in iteration order. -/
def configPairs (cfg : List (List Char × List StationCfg)) :
    List (List Char × StationCfg) :=
  cfg.flatMap (fun pc => pc.2.map (fun sc => (pc.1, sc)))

/-- Modelled from the spec: the pairs whose extraction yields a present
result, each with its price — the commits the orchestrator is contracted
to perform. -/
def presentResults (fetch : List Char → List Char → Option ℚ)
    (cfg : List (List Char × List StationCfg)) :
    List (List Char × StationCfg × ℚ) :=
  (configPairs cfg).filterMap
    (fun pr => (fetch pr.1 pr.2.name).map (fun p => (pr.1, pr.2, p)))

/-- Modelled from the spec: the `add_price` calls committing the present
results in order, the i-th commit using the i-th clock reads counted from
`idx`. -/
def commitCalls (clock : ℕ → List Char × List Char) :
    ℕ → List (List Char × StationCfg × ℚ) → List AddCall
  | _, [] => []
  | idx, (po, sc, p) :: rest =>
      { price := p, postal := po, station := sc.name, fuel := sc.fuel,
        now := (clock idx).1, today := (clock idx).2 } ::
      commitCalls clock (idx + 1) rest

/-! ## Order facts about the date comparison -/

theorem leChars_total (a : List Char) : ∀ b, (leChars a b || leChars b a) = true := by
  induction a with
  | nil => intro b; cases b <;> simp [leChars]
  | cons x xs ih =>
      intro b
      cases b with
      | nil => simp [leChars]
      | cons y ys =>
          by_cases hxy : x < y
          · simp [leChars, hxy]
          · by_cases hyx : y < x
            · simp [leChars, hxy, hyx]
            · simpa [leChars, hxy, hyx] using ih ys

theorem leChars_trans (a : List Char) :
    ∀ b c, leChars a b = true → leChars b c = true → leChars a c = true := by
  induction a with
  | nil => intro b c _ _; simp [leChars]
  | cons x xs ih =>
      intro b c hab hbc
      cases b with
      | nil => simp [leChars] at hab
      | cons y ys =>
          cases c with
          | nil => simp [leChars] at hbc
          | cons z zs =>
              by_cases h1 : x < y
              · by_cases h2 : y < z
                · simp [leChars, lt_trans h1 h2]
                · by_cases h3 : z < y
                  · simp [leChars, h2, h3] at hbc
                  · have hyz : y = z := le_antisymm (not_lt.mp h3) (not_lt.mp h2)
                    simp [leChars, hyz ▸ h1]
              · by_cases h1' : y < x
                · simp [leChars, h1, h1'] at hab
                · have hxy : x = y := le_antisymm (not_lt.mp h1') (not_lt.mp h1)
                  by_cases h2 : y < z
                  · simp [leChars, hxy ▸ h2]
                  · by_cases h3 : z < y
                    · simp [leChars, h2, h3] at hbc
                    · have hrec := ih ys zs
                        (by simpa [leChars, h1, h1'] using hab)
                        (by simpa [leChars, h2, h3] using hbc)
                      simp [leChars, hxy ▸ h2, hxy ▸ h3, hrec]

theorem dateLe_total (a b : Entry) : (dateLe a b || dateLe b a) = true :=
  leChars_total a.date b.date

theorem dateLe_trans (a b c : Entry) (h1 : dateLe a b = true)
    (h2 : dateLe b c = true) : dateLe a c = true :=
  leChars_trans a.date b.date c.date h1 h2

/-! ## Store lemmas -/

/-- Two prefixes of the same string with the same length coincide. -/
theorem isPre_eq_of_length (a b s : List Char) (ha : isPre a s = true)
    (hb : isPre b s = true) (hl : a.length = b.length) : a = b := by
  unfold isPre at ha hb
  rw [List.isPrefixOf_iff_prefix, List.prefix_iff_eq_take] at ha hb
  rw [ha, hb, hl]

/-- Membership in the collection after one `add_price` call: exactly the old
entries for a different (day, station, postal) key, plus the new entry. -/
theorem mem_addPrice (data : List Entry) (price : ℚ)
    (postal station fuel now today : List Char) (e : Entry) :
    e ∈ (addPrice data price postal station fuel now today).1 ↔
      ((e ∈ data ∧ sameDayEntry today station postal e = false) ∨
        e = (addPrice data price postal station fuel now today).2) := by
  unfold addPrice
  rw [(List.perm_insertionSort entryLe _).mem_iff]
  simp only [List.mem_append, List.mem_filter, List.mem_singleton,
    Bool.not_eq_true']

/-- The dedup invariant: at most one stored entry per
(10-char calendar day, station, postal code) key. -/
def dedupInv (data : List Entry) : Prop :=
  ∀ day st po : List Char, day.length = 10 →
    List.countP (sameDayEntry day st po) data ≤ 1

theorem countP_addPrice (data : List Entry) (price : ℚ)
    (postal station fuel now today : List Char) (p : Entry → Bool) :
    List.countP p (addPrice data price postal station fuel now today).1 =
      List.countP p (data.filter (fun e => !(sameDayEntry today station postal e)))
        + List.countP p [(addPrice data price postal station fuel now today).2] := by
  unfold addPrice
  rw [(List.perm_insertionSort entryLe _).countP_eq, List.countP_append]

/-- One `add_price` call preserves the dedup invariant when its two clock
reads are coherent (the day string is the 10-char prefix of the timestamp). -/
theorem addPrice_dedupInv (data : List Entry) (price : ℚ)
    (postal station fuel now today : List Char)
    (hlen : today.length = 10) (hpre : isPre today now = true)
    (hinv : dedupInv data) :
    dedupInv (addPrice data price postal station fuel now today).1 := by
  intro day st po hday
  rw [countP_addPrice]
  by_cases hm : sameDayEntry day st po
      (addPrice data price postal station fuel now today).2 = true
  · -- the new entry matches the probed key, so the key is this call's key
    have hst : st = station ∧ po = postal ∧ isPre day now = true := by
      simp only [addPrice, sameDayEntry, Bool.and_eq_true, beq_iff_eq] at hm
      exact ⟨hm.1.2.symm, hm.2.symm, hm.1.1⟩
    obtain ⟨hst, hpo, hdpre⟩ := hst
    have hdt : day = today := isPre_eq_of_length day today now hdpre hpre
      (by rw [hday, hlen])
    have hzero : List.countP (sameDayEntry day st po)
        (data.filter (fun e => !(sameDayEntry today station postal e))) = 0 := by
      rw [List.countP_eq_zero]
      intro a ha
      rw [List.mem_filter, Bool.not_eq_true'] at ha
      rw [hdt, hst, hpo]
      simp [ha.2]
    rw [hzero]
    simp [List.countP_cons, hm]
  · have h1 : List.countP (sameDayEntry day st po)
        [(addPrice data price postal station fuel now today).2] = 0 := by
      simp [List.countP_cons, hm]
    have h2 : List.countP (sameDayEntry day st po)
        (data.filter (fun e => !(sameDayEntry today station postal e))) ≤
        List.countP (sameDayEntry day st po) data := by
      rw [List.countP_filter]
      exact List.countP_mono_left (fun x _ hx => by
        rw [Bool.and_eq_true] at hx; exact hx.1)
    have h3 := hinv day st po hday
    omega

theorem dedupInv_nil : dedupInv [] := by
  intro day st po _
  simp [List.countP_nil]

theorem runCalls_dedupInv (calls : List AddCall) :
    ∀ data, dedupInv data → (∀ c ∈ calls, wfClock c) →
      dedupInv (runCalls data calls) := by
  induction calls with
  | nil => intro data h _; exact h
  | cons c cs ih =>
      intro data h hwf
      have hc := hwf c (List.mem_cons_self c cs)
      exact ih _ (addPrice_dedupInv data c.price c.postal c.station c.fuel
        c.now c.today hc.1 hc.2 h)
        (fun d hd => hwf d (List.mem_cons_of_mem c hd))

/-- C1: a call to `add_price` removes every existing entry with the same
calendar day, station name and postal code before appending the fresh
entry, so the collection after the call holds exactly the old entries with
a different key plus the new entry (first and second conjuncts: membership
characterisation, and the only surviving entry for the call's key is the
new one); consequently, any sequence of `add_price` calls whose two clock
reads are coherent leaves at most one entry per (calendar day, station,
postal code) triple (third conjunct). -/
theorem claim1_addPrice_same_day_replacement :
    (∀ (data : List Entry) (price : ℚ)
        (postal station fuel now today : List Char) (e : Entry),
        e ∈ (addPrice data price postal station fuel now today).1 ↔
          ((e ∈ data ∧ sameDayEntry today station postal e = false) ∨
            e = (addPrice data price postal station fuel now today).2))
    ∧ (∀ (data : List Entry) (price : ℚ)
        (postal station fuel now today : List Char) (e : Entry),
        e ∈ (addPrice data price postal station fuel now today).1 →
          sameDayEntry today station postal e = true →
          e = (addPrice data price postal station fuel now today).2)
    ∧ (∀ calls : List AddCall, (∀ c ∈ calls, wfClock c) →
        dedupInv (runCalls [] calls)) := by
  refine ⟨mem_addPrice, ?_, ?_⟩
  · intro data price postal station fuel now today e he hkey
    rcases (mem_addPrice data price postal station fuel now today e).1 he with
      ⟨_, hf⟩ | h
    · rw [hkey] at hf; cases hf
    · exact h
  · intro calls hwf
    exact runCalls_dedupInv calls [] dedupInv_nil hwf

/-- C1 witness: two same-day calls for the same station and postal code on
concrete data leave a store satisfying the dedup invariant. -/
theorem claim1_witness :
    dedupInv (runCalls []
      [{ price := 1.879, postal := "92400".toList, station := "StationA".toList,
         fuel := "SP98".toList, now := "2025-01-02T10:00:00".toList,
         today := "2025-01-02".toList },
       { price := 1.901, postal := "92400".toList, station := "StationA".toList,
         fuel := "SP98".toList, now := "2025-01-02T11:00:00".toList,
         today := "2025-01-02".toList }]) :=
  claim1_addPrice_same_day_replacement.2.2 _ (by
    intro c hc
    simp only [List.mem_cons, List.not_mem_nil, or_false] at hc
    rcases hc with h | h <;> subst h <;> exact ⟨by decide, by decide⟩)

/-- C2: after any `add_price` call, on any prior store contents,
`get_history()` returns the collection in non-decreasing timestamp order
(the string order on ISO timestamps that Python's sort key uses). -/
theorem claim2_getHistory_sorted :
    ∀ (data : List Entry) (price : ℚ)
      (postal station fuel now today : List Char),
      List.Pairwise (fun a b => dateLe a b = true)
        (getHistory (addPrice data price postal station fuel now today).1) := by
  intro data price postal station fuel now today
  unfold getHistory addPrice
  have htot : IsTotal Entry entryLe :=
    ⟨fun a b => Bool.or_eq_true_iff.mp (dateLe_total a b)⟩
  have htr : IsTrans Entry entryLe := ⟨fun a b c => dateLe_trans a b c⟩
  exact @List.sorted_insertionSort Entry entryLe _ htot htr _

/-- C6: `load_db` is total (never raises): a missing store file yields the
empty collection, and an existing file whose content fails to parse is
caught, logged, and also yields the empty collection. -/
theorem claim6_loadDb_graceful :
    loadDb FileState.missing = [] ∧ loadDb FileState.corrupt = [] :=
  ⟨rfl, rfl⟩

/-- C7: a failed `save_db` is caught (never raises to the caller) and the
in-memory collection after the call is exactly the one before it —
`save_db` never touches `self.data`, on the success path either. -/
theorem claim7_saveDb_keeps_memory :
    (∀ (data : List Entry) (failFile : FileState),
        (saveDb data false failFile).2 = data)
    ∧ (∀ (data : List Entry) (writeOk : Bool) (failFile : FileState),
        (saveDb data writeOk failFile).2 = data) := by
  constructor
  · intro data failFile; rfl
  · intro data writeOk failFile
    unfold saveDb
    cases writeOk <;> rfl

/-- C9: loading the persisted store, saving the loaded collection
unmodified (with the write succeeding), and loading again returns the same
collection as the first load — for every initial file state, a missing or
corrupt one included. -/
theorem claim9_load_save_load_id :
    ∀ (fs failFile : FileState),
      loadDb (saveDb (loadDb fs) true failFile).1 = loadDb fs := by
  intro fs failFile
  cases fs <;> rfl

/-! ## Extractor lemmas -/

theorem digVal_le_nine (c : Char) (h : isDig c = true) : digVal c ≤ 9 := by
  simp only [isDig, Bool.and_eq_true, decide_eq_true_eq] at h
  have hn : c.toNat ≤ '9'.toNat := h.2
  have h9 : '9'.toNat = 57 := by decide
  have h0 : '0'.toNat = 48 := by decide
  unfold digVal
  omega

theorem natOfDigits_two (a b : Char) :
    natOfDigits [a, b] = digVal a * 10 + digVal b := by
  simp [natOfDigits]

theorem natOfDigits_three (a b c : Char) :
    natOfDigits [a, b, c] = digVal a * 100 + digVal b * 10 + digVal c := by
  simp [natOfDigits]
  ring

theorem floatOfMatch_two (d1 d2 : Char) (h1 : isDig d1 = true)
    (h2 : isDig d2 = true) :
    1 ≤ floatOfMatch ['1', '.', d1, d2] ∧ floatOfMatch ['1', '.', d1, d2] < 2 := by
  have u1 := digVal_le_nine d1 h1
  have u2 := digVal_le_nine d2 h2
  have hn : natOfDigits [d1, d2] ≤ 99 := by rw [natOfDigits_two]; omega
  have hq : ((natOfDigits [d1, d2] : ℕ) : ℚ) ≤ 99 := by exact_mod_cast hn
  have hq0 : (0 : ℚ) ≤ ((natOfDigits [d1, d2] : ℕ) : ℚ) := Nat.cast_nonneg _
  constructor
  · show (1 : ℚ) ≤ 1 + (natOfDigits [d1, d2] : ℚ) / 100
    linarith
  · show 1 + (natOfDigits [d1, d2] : ℚ) / 100 < 2
    linarith

theorem floatOfMatch_three (d1 d2 d3 : Char) (h1 : isDig d1 = true)
    (h2 : isDig d2 = true) (h3 : isDig d3 = true) :
    1 ≤ floatOfMatch ['1', '.', d1, d2, d3] ∧
      floatOfMatch ['1', '.', d1, d2, d3] < 2 := by
  have u1 := digVal_le_nine d1 h1
  have u2 := digVal_le_nine d2 h2
  have u3 := digVal_le_nine d3 h3
  have hn : natOfDigits [d1, d2, d3] ≤ 999 := by rw [natOfDigits_three]; omega
  have hq : ((natOfDigits [d1, d2, d3] : ℕ) : ℚ) ≤ 999 := by exact_mod_cast hn
  have hq0 : (0 : ℚ) ≤ ((natOfDigits [d1, d2, d3] : ℕ) : ℚ) := Nat.cast_nonneg _
  constructor
  · show (1 : ℚ) ≤ 1 + (natOfDigits [d1, d2, d3] : ℚ) / 1000
    linarith
  · show 1 + (natOfDigits [d1, d2, d3] : ℚ) / 1000 < 2
    linarith

/-- Every successful head match parses to a value in [1, 2): the pattern
fixes the integer part to the single digit 1. -/
theorem priceTok_bounds (s m t : List Char)
    (h : priceTok s = some (m, t)) :
    1 ≤ floatOfMatch m ∧ floatOfMatch m < 2 := by
  unfold priceTok at h
  split at h
  · rename_i d1 d2 d3 tail
    split at h
    · rename_i hdd
      rw [Bool.and_eq_true] at hdd
      split at h
      · cases h
        exact floatOfMatch_three d1 d2 d3 hdd.1 hdd.2 (by assumption)
      · cases h
        exact floatOfMatch_two d1 d2 hdd.1 hdd.2
    · cases h
  · rename_i d1 d2
    split at h
    · rename_i hdd
      rw [Bool.and_eq_true] at hdd
      cases h
      exact floatOfMatch_two d1 d2 hdd.1 hdd.2
    · cases h
  · cases h

theorem findallPriceAux_bounds (fuel : ℕ) :
    ∀ s : List Char, ∀ m ∈ findallPriceAux fuel s,
      1 ≤ floatOfMatch m ∧ floatOfMatch m < 2 := by
  induction fuel with
  | zero =>
      intro s m hm
      rw [findallPriceAux] at hm
      exact absurd hm (List.not_mem_nil m)
  | succ n ih =>
      intro s m hm
      cases s with
      | nil =>
          rw [findallPriceAux] at hm
          exact absurd hm (List.not_mem_nil m)
      | cons c rest =>
          rw [findallPriceAux] at hm
          cases hp : priceTok (c :: rest) with
          | some mt =>
              obtain ⟨mm, tail⟩ := mt
              rw [hp] at hm
              rcases List.mem_cons.mp hm with hm | hm
              · subst hm; exact priceTok_bounds _ _ _ hp
              · exact ih tail m hm
          | none =>
              rw [hp] at hm
              exact ih rest m hm

/-- Every regex match of the primary pattern parses to a value in [1, 2). -/
theorem findallPrice_bounds (s : List Char) :
    ∀ m ∈ findallPrice s, 1 ≤ floatOfMatch m ∧ floatOfMatch m < 2 :=
  findallPriceAux_bounds s.length s

theorem selectFromCandidates_some (ps : List ℚ) (p : ℚ)
    (h : selectFromCandidates ps = some p) :
    p ∈ ps ∧ plausible2 p = true := by
  unfold selectFromCandidates at h
  constructor
  · have hmem := List.mem_of_find?_eq_some h
    rw [List.mem_reverse, (List.perm_insertionSort _ _).mem_iff] at hmem
    exact hmem
  · exact List.find?_some h

theorem primaryScan_some (pg : List Char) (p : ℚ)
    (h : primaryScan pg = some p) :
    plausible2 p = true ∧
      ∃ m ∈ findallPrice pg, floatOfMatch m = p := by
  unfold primaryScan at h
  split at h
  · exact absurd h (by simp)
  · obtain ⟨hmem, hpl⟩ := selectFromCandidates_some _ _ h
    rw [List.mem_map] at hmem
    obtain ⟨m, hm, hmp⟩ := hmem
    exact ⟨hpl, m, List.mem_dedup.mp hm, hmp⟩

/-- The primary scan only ever returns values strictly between 1.5 and 2:
plausibility cuts below, the shape of the pattern cuts above. -/
theorem primaryScan_bounds (pg : List Char) (p : ℚ)
    (h : primaryScan pg = some p) : 3/2 < p ∧ p < 2 := by
  obtain ⟨hpl, m, hm, hmp⟩ := primaryScan_some pg p h
  have hb := findallPrice_bounds pg m hm
  simp only [plausible2, Bool.and_eq_true, decide_eq_true_eq] at hpl
  exact ⟨hpl.1, hmp ▸ hb.2⟩

theorem secondaryScan_some (pf : List Char → Option ℚ) (l : List (List Char))
    (p : ℚ) (h : secondaryScan pf l = some p) : plausible2 p = true := by
  induction l with
  | nil => simp [secondaryScan] at h
  | cons e rest ih =>
      simp only [secondaryScan] at h
      split at h
      · split at h
        · split at h
          · cases h
            assumption
          · exact ih h
        · exact ih h
      · exact ih h

theorem extractStationPrice_inRange (pf : List Char → Option ℚ)
    (st pg : List Char) (el : List (List Char)) (p : ℚ)
    (h : extractStationPrice pf st pg el = some p) : plausible2 p = true := by
  unfold extractStationPrice at h
  split at h
  · split at h
    · rename_i q hq
      cases h
      exact (primaryScan_some pg p hq).1
    · exact secondaryScan_some pf (el.take 10) p h
  · exact absurd h (by simp)

/-- The first hit of `find?` on a descending list is an upper bound of every
element satisfying the predicate. -/
theorem find?_max_of_sorted_desc {p : ℚ → Bool} :
    ∀ {l : List ℚ} {x : ℚ}, l.Pairwise (fun a b => b ≤ a) →
      l.find? p = some x → ∀ q ∈ l, p q = true → q ≤ x := by
  intro l
  induction l with
  | nil => intro x _ hf; simp at hf
  | cons a t ih =>
      intro x hs hf q hq hpq
      cases hpa : p a with
      | true =>
          rw [List.find?_cons_of_pos t hpa] at hf
          cases hf
          rcases List.mem_cons.mp hq with hq | hq
          · exact hq.le
          · exact (List.pairwise_cons.mp hs).1 q hq
      | false =>
          rw [List.find?_cons_of_neg t (by simp [hpa])] at hf
          rcases List.mem_cons.mp hq with hq | hq
          · subst hq; rw [hpq] at hpa; cases hpa
          · exact ih (List.pairwise_cons.mp hs).2 hf q hq hpq

/-! ## Extractor claims -/

/-- C3: on every run of `fetch_price_selenium_station` — every exception
pattern, page content and `float()` behaviour — a present result lies
strictly inside (1.5, 2.5); the shared plausibility test rejects the
bounds themselves, so candidate values exactly 1.5 or 2.5 are never
returned by either strategy. -/
theorem claim3_plausibility_filter :
    (∀ (stationName : List Char) (env : SessionEnv) (p : ℚ),
        (fetchPriceSeleniumStation stationName env).result = some p →
          3 / 2 < p ∧ p < 5 / 2)
    ∧ plausible2 (3 / 2) = false ∧ plausible2 (5 / 2) = false := by
  refine ⟨?_, ?_, ?_⟩
  · intro stationName env p h
    unfold fetchPriceSeleniumStation at h
    split at h
    · exact absurd h (by simp)
    · split at h
      · exact absurd h (by simp)
      · split at h
        · exact absurd h (by simp)
        · split at h
          · exact absurd h (by simp)
          · simp only at h
            split at h
            · exact absurd h (by simp)
            · have hpl := extractStationPrice_inRange env.parseFloat
                stationName env.pageSource env.euroElems p h
              simpa [plausible2, Bool.and_eq_true] using hpl
  · simp [plausible2]
  · simp [plausible2]

/-- Demo run for C3: a clean session over a page containing the station
and the text 1.899 extracts 1.899 through the primary strategy. -/
def c3Env : SessionEnv :=
  { createRaises := false, navigateRaises := false, inputBlockRaises := false,
    scrollRaises := false, extractRaises := false, quitRaises := false,
    pageSource := "TOTAL ACCESS 1.899".toList, euroElems := [],
    parseFloat := fun _ => none }

theorem c3Env_result :
    (fetchPriceSeleniumStation "TOTAL ACCESS".toList c3Env).result =
      some (1899 / 1000) := by
  have h : findallPrice "TOTAL ACCESS 1.899".toList = [['1', '.', '8', '9', '9']] := by
    decide
  have hv : floatOfMatch ['1', '.', '8', '9', '9'] = 1899 / 1000 := by
    have hn : natOfDigits ['8', '9', '9'] = 899 := by decide
    show 1 + (natOfDigits ['8', '9', '9'] : ℚ) / 1000 = 1899 / 1000
    rw [hn]; norm_num
  have hp : plausible2 (1899 / 1000) = true := by
    simp only [plausible2, Bool.and_eq_true, decide_eq_true_eq]
    norm_num
  have hprim : primaryScan "TOTAL ACCESS 1.899".toList = some (1899 / 1000) := by
    rw [primaryScan, h]
    simp [selectFromCandidates, List.insertionSort, List.orderedInsert,
      List.find?, List.dedup, hv, hp]
  have hcond : (isSub (stationShortName "TOTAL ACCESS".toList)
      "TOTAL ACCESS 1.899".toList
      || isSub "TOTAL ACCESS".toList "TOTAL ACCESS 1.899".toList) = true := by
    decide
  show (extractStationPrice (fun _ => none) "TOTAL ACCESS".toList
    "TOTAL ACCESS 1.899".toList []) = some (1899 / 1000)
  rw [extractStationPrice, if_pos hcond, hprim]

/-- C3 witness: the plausibility theorem applied to the concrete demo run. -/
theorem claim3_witness :
    3 / 2 < (1899 / 1000 : ℚ) ∧ (1899 / 1000 : ℚ) < 5 / 2 :=
  claim3_plausibility_filter.1 "TOTAL ACCESS".toList c3Env (1899 / 1000)
    c3Env_result

/-- C4: a primary-strategy result is the greatest candidate lying strictly
between 1.5 and 2.5 (the ascending sort scanned from the top yields the
first, hence highest, plausible value); in particular on the candidate set
{1.899, 1.45, 2.9, 1.755} the selection returns 1.899.  `primaryScan`
applies this selection to the distinct parsed regex matches. -/
theorem claim4_primary_takes_highest :
    (∀ (ps : List ℚ) (p : ℚ), selectFromCandidates ps = some p →
        p ∈ ps ∧ plausible2 p = true ∧
          ∀ q ∈ ps, plausible2 q = true → q ≤ p)
    ∧ selectFromCandidates [1.899, 1.45, 2.9, 1.755] = some 1.899 := by
  constructor
  · intro ps p h
    have hmem := selectFromCandidates_some ps p h
    refine ⟨hmem.1, hmem.2, ?_⟩
    unfold selectFromCandidates at h
    have hsorted : ((List.insertionSort (· ≤ ·) ps).reverse).Pairwise
        (fun a b : ℚ => b ≤ a) := by
      rw [List.pairwise_reverse]
      exact List.sorted_insertionSort (· ≤ ·) ps
    intro q hq hpq
    refine find?_max_of_sorted_desc hsorted h q ?_ hpq
    rw [List.mem_reverse, (List.perm_insertionSort _ _).mem_iff]
    exact hq
  · norm_num [selectFromCandidates, List.insertionSort, List.orderedInsert,
      List.find?, plausible2]

/-- C4 witness: the characterisation applied to the concrete candidate set
of the scenario. -/
theorem claim4_witness :
    (1.899 : ℚ) ∈ [(1.899 : ℚ), 1.45, 2.9, 1.755] ∧
      plausible2 1.899 = true ∧
      ∀ q ∈ [(1.899 : ℚ), 1.45, 2.9, 1.755], plausible2 q = true → q ≤ 1.899 :=
  claim4_primary_takes_highest.1 [1.899, 1.45, 2.9, 1.755] 1.899
    claim4_primary_takes_highest.2

/-- C10: the primary text-scan can only return values strictly between 1.5
and 2 — its pattern fixes the integer part to 1 — so any extracted price of
2.0 or more can only have come from the secondary currency-symbol strategy
(which only runs when the primary found nothing); the third conjunct shows
such a price, 2.30, is indeed reachable through the secondary strategy. -/
theorem claim10_primary_capped_below_two :
    (∀ (pg : List Char) (p : ℚ), primaryScan pg = some p → 3 / 2 < p ∧ p < 2)
    ∧ (∀ (pf : List Char → Option ℚ) (st pg : List Char)
        (el : List (List Char)) (p : ℚ),
        extractStationPrice pf st pg el = some p → 2 ≤ p →
          primaryScan pg = none)
    ∧ extractStationPrice parseDec "S".toList "S x".toList
        ["2.30 €".toList] = some (23 / 10) := by
  refine ⟨primaryScan_bounds, ?_, ?_⟩
  · intro pf st pg el p h h2
    unfold extractStationPrice at h
    split at h
    · cases hps : primaryScan pg with
      | none => rfl
      | some q =>
          rw [hps] at h
          cases h
          have hb := primaryScan_bounds pg p hps
          linarith
    · exact absurd h (by simp)
  · have htok : (splitWs (strip ((strip "2.30 €".toList).takeWhile
        (fun c => c ≠ '€')))).getLast? = some "2.30".toList := by decide
    have hpd : parseDec "2.30".toList = some (23 / 10) := by
      have h1 : List.takeWhile isDig ['2', '.', '3', '0'] = ['2'] := by decide
      have h2 : natOfDigits ['2'] = 2 := by decide
      have h3 : natOfDigits ['3', '0'] = 30 := by decide
      simp +decide [parseDec, parseDecCore, h1, h2, h3]
      norm_num
    have hcand : elemCandidate parseDec (strip "2.30 €".toList) =
        some (23 / 10) := by
      rw [elemCandidate, htok]
      exact hpd
    have hpl : plausible2 (23 / 10) = true := by
      simp only [plausible2, Bool.and_eq_true, decide_eq_true_eq]
      norm_num
    have hprim : primaryScan "S x".toList = none := by
      have h0 : findallPrice "S x".toList = [] := by decide
      rw [primaryScan, h0]
      simp
    have hcond : (isSub (stationShortName "S".toList) "S x".toList
        || isSub "S".toList "S x".toList) = true := by decide
    rw [extractStationPrice, if_pos hcond, hprim]
    show secondaryScan parseDec (["2.30 €".toList].take 10) = some (23 / 10)
    rw [List.take]
    rw [secondaryScan]
    simp only [hcand, hpl]
    split
    · rfl
    · rename_i hc
      exact absurd (by decide) hc

/-- C10 witness: the primary-scan bound applied to the demo page of C3's
environment, whose primary scan succeeds with 1.899. -/
theorem claim10_witness :
    3 / 2 < (1899 / 1000 : ℚ) ∧ (1899 / 1000 : ℚ) < 2 := by
  have h : findallPrice "RELAIS 1.899".toList = [['1', '.', '8', '9', '9']] := by
    decide
  have hv : floatOfMatch ['1', '.', '8', '9', '9'] = 1899 / 1000 := by
    have hn : natOfDigits ['8', '9', '9'] = 899 := by decide
    show 1 + (natOfDigits ['8', '9', '9'] : ℚ) / 1000 = 1899 / 1000
    rw [hn]; norm_num
  have hp : plausible2 (1899 / 1000) = true := by
    simp only [plausible2, Bool.and_eq_true, decide_eq_true_eq]
    norm_num
  refine claim10_primary_capped_below_two.1 "RELAIS 1.899".toList _ ?_
  rw [primaryScan, h]
  simp [selectFromCandidates, List.insertionSort, List.orderedInsert,
    List.find?, List.dedup, hv, hp]

/-! ## Session teardown (C5)

The claim says the browser session is terminated on every code path that
reaches session creation.  The code has no `finally`: an exception raised
by `driver.get` (line 294) or by `driver.execute_script` (line 342) — both
outside the two inner handlers — lands in the outer handler at line 397,
which returns `None` without calling `driver.quit()`. -/

/-- A run in which the session is created and then navigation raises. -/
def c5Env : SessionEnv :=
  { createRaises := false, navigateRaises := true, inputBlockRaises := false,
    scrollRaises := false, extractRaises := false, quitRaises := false,
    pageSource := [], euroElems := [], parseFloat := fun _ => none }

/-- C5 (refuted by the code): when navigation raises after the Chrome
session was created, `fetch_price_selenium_station` returns `None` with the
session created but `driver.quit()` never invoked — the session leaks,
contradicting the claim that every path after creation terminates the
session. -/
theorem claim5_session_leak_on_navigation :
    (fetchPriceSeleniumStation [] c5Env).created = true ∧
      (fetchPriceSeleniumStation [] c5Env).quitCalled = false ∧
      (fetchPriceSeleniumStation [] c5Env).result = none :=
  ⟨rfl, rfl, rfl⟩

/-! ## Orchestrator lemmas (C8) -/

/-- The present results among one postal code's stations. -/
def stationResults (fetch : List Char → List Char → Option ℚ)
    (postal : List Char) (stations : List StationCfg) :
    List (List Char × StationCfg × ℚ) :=
  stations.filterMap
    (fun sc => (fetch postal sc.name).map (fun p => (postal, sc, p)))

theorem length_filterMap_eq_countP {α β : Type} (f : α → Option β) :
    ∀ l : List α, (l.filterMap f).length = l.countP (fun a => (f a).isSome) := by
  intro l
  induction l with
  | nil => rfl
  | cons a t ih =>
      rw [List.filterMap_cons, List.countP_cons]
      cases hf : f a <;> simp [hf, ih]

theorem commitCalls_append (clock : ℕ → List Char × List Char) :
    ∀ (l1 l2 : List (List Char × StationCfg × ℚ)) (i : ℕ),
      commitCalls clock i (l1 ++ l2) =
        commitCalls clock i l1 ++ commitCalls clock (i + l1.length) l2 := by
  intro l1
  induction l1 with
  | nil => intro l2 i; simp [commitCalls]
  | cons x t ih =>
      intro l2 i
      obtain ⟨po, sc, p⟩ := x
      rw [List.cons_append, commitCalls, commitCalls, ih]
      simp only [List.length_cons]
      rw [List.cons_append]
      have : i + 1 + t.length = i + (t.length + 1) := by omega
      rw [this]

theorem runCalls_append (l1 l2 : List AddCall) :
    ∀ data : List Entry,
      runCalls data (l1 ++ l2) = runCalls (runCalls data l1) l2 := by
  induction l1 with
  | nil => intro data; rfl
  | cons c t ih =>
      intro data
      rw [List.cons_append, runCalls, runCalls, ih]

theorem fetchStationsLoop_spec (fetch : List Char → List Char → Option ℚ)
    (clock : ℕ → List Char × List Char) (postal : List Char) :
    ∀ (stations : List StationCfg) (data : List Entry) (total idx : ℕ),
      fetchStationsLoop fetch clock postal stations data total idx =
        (runCalls data
          (commitCalls clock idx (stationResults fetch postal stations)),
         total + (stationResults fetch postal stations).length,
         idx + (stationResults fetch postal stations).length) := by
  intro stations
  induction stations with
  | nil => intro data total idx; simp [fetchStationsLoop, stationResults,
      commitCalls, runCalls]
  | cons sc rest ih =>
      intro data total idx
      cases hf : fetch postal sc.name with
      | some p =>
          have hsr : stationResults fetch postal (sc :: rest) =
              (postal, sc, p) :: stationResults fetch postal rest := by
            rw [stationResults, List.filterMap_cons, hf]
            rfl
          simp only [fetchStationsLoop, hf]
          rw [ih, hsr, commitCalls, runCalls]
          simp only [List.length_cons, Prod.mk.injEq]
          exact ⟨trivial, by omega, by omega⟩
      | none =>
          have hsr : stationResults fetch postal (sc :: rest) =
              stationResults fetch postal rest := by
            rw [stationResults, List.filterMap_cons, hf]
            rfl
          simp only [fetchStationsLoop, hf]
          rw [ih, hsr]

theorem presentResults_cons (fetch : List Char → List Char → Option ℚ)
    (postal : List Char) (stations : List StationCfg)
    (rest : List (List Char × List StationCfg)) :
    presentResults fetch ((postal, stations) :: rest) =
      stationResults fetch postal stations ++ presentResults fetch rest := by
  rw [presentResults, configPairs, List.flatMap_cons, List.filterMap_append]
  rw [List.filterMap_map]
  rfl

theorem fetchAllLoop_spec (fetch : List Char → List Char → Option ℚ)
    (clock : ℕ → List Char × List Char) :
    ∀ (cfg : List (List Char × List StationCfg)) (data : List Entry)
      (total idx : ℕ),
      fetchAllLoop fetch clock cfg data total idx =
        (runCalls data (commitCalls clock idx (presentResults fetch cfg)),
         total + (presentResults fetch cfg).length,
         idx + (presentResults fetch cfg).length) := by
  intro cfg
  induction cfg with
  | nil => intro data total idx; simp [fetchAllLoop, presentResults,
      configPairs, commitCalls, runCalls]
  | cons pc rest ih =>
      intro data total idx
      obtain ⟨postal, stations⟩ := pc
      rw [fetchAllLoop, fetchStationsLoop_spec, ih, presentResults_cons,
        commitCalls_append, runCalls_append]
      simp only [List.length_append, Prod.mk.injEq]
      exact ⟨trivial, by omega, by omega⟩

/-- C8: `fetch_all_prices` invokes the extractor once per configured
(postal code, station) pair; every present result is committed through
`add_price` in order — an absent result is logged and skipped, never
aborting the rest of the batch — and the reported tally is exactly the
number of pairs whose extraction returned a present result. -/
theorem claim8_orchestrator_contract :
    ∀ (fetch : List Char → List Char → Option ℚ)
      (cfg : List (List Char × List StationCfg))
      (init : List Entry) (clock : ℕ → List Char × List Char),
      fetchAllPrices fetch cfg init clock =
        (runCalls init (commitCalls clock 0 (presentResults fetch cfg)),
         (presentResults fetch cfg).length)
      ∧ (presentResults fetch cfg).length =
          (configPairs cfg).countP (fun pr => (fetch pr.1 pr.2.name).isSome) := by
  intro fetch cfg init clock
  constructor
  · rw [fetchAllPrices, fetchAllLoop_spec]
    simp
  · rw [presentResults, length_filterMap_eq_countP]
    congr 1
    funext pr
    cases hf : fetch pr.1 pr.2.name <;> simp [hf]

end EssenceTracker
